import Mathlib

/-!
# Verification of the family-tree loader, generation assigner and layout engine

Shallow embedding of the `family-tree` Python repository:

* `src/family_tree/core/loader.py`   — `TreeLoader._parse_tree_data` / `parse_person`
* `src/family_tree/core/models.py`   — `Person`, `FamilyTree.get_generations`,
  `FamilyTree._collect_all_people`, `Person.add_parent`
* `src/family_tree/rendering/matplotlib_renderer.py` — `_calculate_layout`,
  `_format_person_text`
* `src/family_tree/rendering/renderer.py` — `_create_person_label`
* `src/family_tree/utils/helpers.py` — `validate_tree_data`

Python `Person` objects are mutable and shared by reference; the embedding uses
an id-keyed store (`PeopleCache`, mirroring the loader's `people_cache` dict):
a "reference to a Person object" is its `id` key, and Python object identity of
two references corresponds to equality of keys in a store whose keys are
unique.  Python `id` values may be `None` (`person_data.get('id')`), so keys
have type `Option Int`.
-/

namespace FamilyTree

/-- A person id as the Python loader sees it: `person_data.get('id')`,
which is `None` when the field is absent. -/
abbrev PId := Option Int

/-- Raw JSON record, the input shape of `TreeLoader._parse_tree_data`.
Scalar fields are `Option` (absent keys); `parents` missing defaults to `[]`
(`person_data.get('parents', [])`), which we fold into the list itself;
`lastId` is only read on the root record (`data.get('lastId', 0)`). -/
inductive RawRecord where
  | mk (id : PId) (name : Option String) (birthyear : Option String)
       (photo : Option String) (type : Option String) (stock : Option Bool)
       (lastId : Option Int) (parents : List RawRecord)
deriving Repr

def RawRecord.id : RawRecord → PId
  | .mk i _ _ _ _ _ _ _ => i

def RawRecord.parents : RawRecord → List RawRecord
  | .mk _ _ _ _ _ _ _ ps => ps

def RawRecord.lastId : RawRecord → Option Int
  | .mk _ _ _ _ _ _ l _ => l

/-- The `Person` dataclass of `models.py`.  `parents` holds references to other
Person objects; in the embedding a reference is the person's id key in the
store (see the header comment).  Python's `Person.__eq__` compares `id` only,
so list membership tests on `parents` compare these keys. -/
structure Person where
  id : PId
  name : String
  birth_year : Option String
  photo : Option String
  type : String
  stock : Bool
  parents : List PId
deriving Repr, DecidableEq

/-- Method `Person.add_parent`: append `parent` unless a parent with an equal id
(`Person.__eq__` is id equality) is already in the list. -/
def addParent (parents : List PId) (pid : PId) : List PId :=
  if pid ∈ parents then parents else parents ++ [pid]

/-- The loader's `people_cache` dict: insertion-ordered id-keyed store of
Person objects. -/
abbrev PeopleCache := List (PId × Person)

/-- Keys of the store, in insertion order. -/
def cacheKeys (c : PeopleCache) : List PId := c.map Prod.fst

/-- Dict lookup (`people_cache[person_id]`): first binding of the key. -/
def cacheLookup (c : PeopleCache) (k : PId) : Option Person :=
  match c with
  | [] => none
  | (k', p) :: rest => if k' = k then some p else cacheLookup rest k

/-- Dict membership test (`person_id in people_cache`). -/
def cacheContains (c : PeopleCache) (k : PId) : Bool :=
  match c with
  | [] => false
  | (k', _) :: rest => k' = k || cacheContains rest k

/-- Mutation `person.add_parent(parent)` where `person` is the object stored
at key `selfId`: rewrite that binding with the parent id appended (via
`addParent`); all other bindings are untouched. -/
def cacheAddParent (c : PeopleCache) (selfId : PId) (pid : PId) : PeopleCache :=
  c.map fun kp => if kp.1 = selfId then (kp.1, { kp.2 with parents := addParent kp.2.parents pid }) else kp

/-- The `Person(...)` constructor call in `parse_person`, with the `.get`
defaults of `loader.py`: `name` defaults to `''`, `type` to `'person'`,
`stock` to `False`, `parents` starts `[]`. -/
def mkPerson (r : RawRecord) : Person :=
  match r with
  | .mk i n b ph t st _ _ =>
    { id := i, name := n.getD "", birth_year := b, photo := ph,
      type := t.getD "person", stock := st.getD false, parents := [] }

mutual

/-- Function `parse_person` of `loader.py`: return the cached person's reference if the
id is already cached, else create the person, cache it *before* recursing into
the embedded parent records, then parse each parent and link it.  Returns the
updated cache and the reference (id key) of the parsed person. -/
def parsePerson : RawRecord → PeopleCache → PeopleCache × PId
  | .mk i n b ph t st li ps, cache =>
    if cacheContains cache i then (cache, i)
    else
      let cache1 := cache ++ [(i, mkPerson (.mk i n b ph t st li ps))]
      (parseParents ps i cache1, i)

/-- The `for parent_data in parents_data` loop of `parse_person`: parse each
parent record, then `person.add_parent(parent)` on the person at `selfId`. -/
def parseParents (rs : List RawRecord) (selfId : PId) (cache : PeopleCache) : PeopleCache :=
  match rs with
  | [] => cache
  | r :: rest =>
    let res := parsePerson r cache
    parseParents rest selfId (cacheAddParent res.1 selfId res.2)

end

/-- The `FamilyTree` dataclass: in the embedding `root` is the root person's
reference (id key) into `all_people`. -/
structure Tree where
  root : PId
  last_id : Int
  all_people : PeopleCache
deriving Repr, DecidableEq

/-- Method `TreeLoader._parse_tree_data`: parse the root record with an empty cache
and build the `FamilyTree` from the parse cache
(`FamilyTree(root=root_person, last_id=data.get('lastId', 0),
all_people=people_cache)`). -/
def parseTreeData (r : RawRecord) : Tree :=
  let res := parsePerson r []
  { root := res.2, last_id := r.lastId.getD 0, all_people := res.1 }

/-! ## `FamilyTree.get_generations` (models.py)

The Python `generations` dict maps a level to the insertion-ordered list of
person objects recorded at that level; in the embedding the lists hold the
persons' id keys.  `assign_generation` is a depth-first recursion (visit the
person, then recurse into its parents in stored order); it is embedded as an
explicit work-stack loop that performs the identical sequence of visits, with
a fuel parameter because the Python recursion need not terminate on graphs
with parent cycles (the claims only concern finite DAGs). -/

/-- The generations dict: level ↦ ordered list of person references. -/
abbrev Gens := List (Nat × List PId)

/-- One visit step on the dict:
`if level not in generations: generations[level] = []` followed by
`if person not in generations[level]: generations[level].append(person)`
(person equality is id equality). -/
def gensAdd (gens : Gens) (level : Nat) (p : PId) : Gens :=
  if gens.any (fun lp => lp.1 = level) then
    gens.map fun lp =>
      if lp.1 = level then (lp.1, if p ∈ lp.2 then lp.2 else lp.2 ++ [p]) else lp
  else gens ++ [(level, [p])]

/-- Function `assign_generation` as a work-stack loop: popping `(pid, level)` records
the person at `level` and pushes its parents (in stored order, at `level+1`)
on the front of the stack — the exact visit order of the Python recursion.
Fuel `0` with work remaining returns `none` (the recursion has not finished). -/
def assignGen (c : PeopleCache) : Nat → List (PId × Nat) → Gens → Option Gens
  | _, [], gens => some gens
  | 0, _ :: _, _ => none
  | fuel + 1, (pid, level) :: stack, gens =>
    let gens1 := gensAdd gens level pid
    let parents := ((cacheLookup c pid).elim [] Person.parents).map (fun q => (q, level + 1))
    assignGen c fuel (parents ++ stack) gens1

/-- Method `FamilyTree.get_generations()`: run `assign_generation(self.root, 0)`
starting from the empty dict, with the given fuel. -/
def getGenerations (t : Tree) (fuel : Nat) : Option Gens :=
  assignGen t.all_people fuel [(t.root, 0)] []

/-! ## Reachability

`FamilyTree._collect_all_people` / the spec's "DFS-visited(root)": the set of
ids reachable from a reference by repeatedly following `parents` links through
the store. -/

/-- Relation `Reaches c s q`: person reference `q` is reachable from reference `s` by
following parent links through cache `c` (zero or more hops). -/
inductive Reaches (c : PeopleCache) : PId → PId → Prop where
  | refl (s : PId) : Reaches c s s
  | step {s q r : PId} {p : Person} : Reaches c s q → cacheLookup c q = some p →
      r ∈ p.parents → Reaches c s r

/-! ## `MatplotlibTreeRenderer._calculate_layout` (matplotlib_renderer.py) -/

/-- The `node_positions` dict write `self.node_positions[person.id] = pos`:
overwrite the binding if the key exists, else append. -/
def posInsert (ps : List (PId × ℚ × ℚ)) (k : PId) (v : ℚ × ℚ) : List (PId × ℚ × ℚ) :=
  if ps.any (fun e => e.1 = k) then
    ps.map (fun e => if e.1 = k then (k, v) else e)
  else ps ++ [(k, v)]

/-- Per-level x coordinates: one person sits at `x = 0`; `count > 1` people
get spacing `max(3.0, 8.0 / count)` and positions
`(i - (count - 1)/2) * x_spacing` for `i = 0, …, count-1`.  Python float
arithmetic is embedded as exact rational arithmetic (every value arising here
is exactly representable wherever it affects a claim). -/
def xPositions (count : Nat) : List ℚ :=
  if count = 1 then [0]
  else
    (List.range count).map
      (fun i : Nat => ((i : ℚ) - ((count : ℚ) - 1) / 2) * max 3 (8 / (count : ℚ)))

/-- Method `_calculate_layout`: `y = max_generation * y_spacing - level * y_spacing`
with `y_spacing = 2.0` (so level 0 gets the largest y), then per level the
x positions in the people's stored order.  `max(generations.keys())` is the
maximum over the (nonempty, for any loaded tree) key list. -/
def calculateLayout (gens : Gens) : List (PId × ℚ × ℚ) :=
  let maxGen : Nat := (gens.map Prod.fst).foldr max 0
  gens.foldl
    (fun pos lp =>
      let y : ℚ := (maxGen : ℚ) * 2 - (lp.1 : ℚ) * 2
      (lp.2.zip (xPositions lp.2.length)).foldl
        (fun pos pv => posInsert pos pv.1 (pv.2, y)) pos)
    []

/-! ## Display labels (renderer.py `_create_person_label`,
matplotlib_renderer.py `_format_person_text`) -/

/-- Tokenizer for Python `str.split()` with no arguments: split on runs of
whitespace, producing no empty tokens.  `acc` holds the current token's
characters in reverse. -/
def pySplitAux : List Char → List Char → List String
  | [], acc => if acc.isEmpty then [] else [String.mk acc.reverse]
  | c :: cs, acc =>
    if c.isWhitespace then
      if acc.isEmpty then pySplitAux cs []
      else String.mk acc.reverse :: pySplitAux cs []
    else pySplitAux cs (c :: acc)

/-- Python `str.split()` with no arguments. -/
def pySplit (s : String) : List String :=
  pySplitAux s.data []

/-- Python truthiness of `person.birth_year` (`Optional[str]`): `None` and
the empty string are falsy. -/
def birthYearTruthy (p : Person) : Bool :=
  match p.birth_year with
  | none => false
  | some y => y ≠ ""

/-- Method `MatplotlibTreeRenderer._format_person_text`: name split into two lines
when it has more than two whitespace-separated parts (all but the last joined
by single spaces, then the last), else the raw name on one line; then a
`(birth_year)` line when `person.birth_year` is truthy. -/
def formatPersonText (p : Person) : List String :=
  let nameParts := pySplit p.name
  let lines :=
    if nameParts.length > 2 then
      [" ".intercalate nameParts.dropLast, nameParts.getLastD ""]
    else [p.name]
  if birthYearTruthy p then lines ++ ["(" ++ (p.birth_year.getD "") ++ ")"]
  else lines

/-- The `lines` list built by `FamilyTreeRenderer._create_person_label`
(renderer.py) — textually the same algorithm as `_format_person_text`,
embedded separately because it is separate code. -/
def createPersonLabelLines (p : Person) : List String :=
  let nameParts := pySplit p.name
  let lines :=
    if nameParts.length > 2 then
      [" ".intercalate nameParts.dropLast, nameParts.getLastD ""]
    else [p.name]
  if birthYearTruthy p then lines ++ ["(" ++ (p.birth_year.getD "") ++ ")"]
  else lines

/-- Method `_create_person_label` returns `'\\n'.join(lines)` — the two-character
separator backslash-n (a Graphviz escape), not a newline. -/
def createPersonLabel (p : Person) : String :=
  "\\n".intercalate (createPersonLabelLines p)

/-! ## `validate_tree_data` (helpers.py) -/

/-- Python truthiness of `p.name.strip()` negated: `not p.name.strip()` holds
iff every character of the name is whitespace (in particular for the empty
name). -/
def nameBlank (p : Person) : Bool :=
  p.name.toList.all Char.isWhitespace

/-- Python `list.count(x)`: the number of elements equal to `x`. -/
def pyCount (l : List PId) (x : PId) : Nat :=
  (l.filter (fun y => y = x)).length

/-- Function `validate_tree_data`: collect advisory issues — one message when some
people have blank names, one when some id occurs twice among
`tree.get_all_people()` (the values of the `all_people` dict, in insertion
order), and one message per person who is their own parent (`person in
person.parents`, id equality).  Never raises; returns the list. -/
def validateTreeData (t : Tree) : List String :=
  let people := t.all_people.map Prod.snd
  let unnamed := people.filter nameBlank
  let issues1 :=
    if unnamed.length > 0 then
      let n := unnamed.length
      [s!"Found {n} people without names"]
    else []
  let ids := people.map Person.id
  let duplicates := (ids.filter (fun x => pyCount ids x > 1)).dedup
  let issues2 :=
    if duplicates ≠ [] then [s!"Duplicate IDs found: {duplicates}"] else []
  let issues3 := people.filterMap
    (fun p =>
      if p.id ∈ p.parents then
        let nm := p.name
        some s!"Person {nm} is their own parent"
      else none)
  issues1 ++ issues2 ++ issues3

/-! ## Specification-side notions used by the theorems -/

/-- Cache `c'` keeps every edge of `c` (each stored person persists with a superset
of its parent links); reachability transfers. -/
def EdgeExt (c c' : PeopleCache) : Prop :=
  ∀ k p, cacheLookup c k = some p →
    ∃ p', cacheLookup c' k = some p' ∧ p.parents ⊆ p'.parents

/-- Invariant maintained by `parse_person` on `people_cache`: keys are unique
(it is a dict), each cached person's `id` field equals its key, every parent
reference points back into the cache, and no parents list holds two references
with the same id. -/
structure CacheWF (c : PeopleCache) : Prop where
  nodupKeys : (cacheKeys c).Nodup
  idEqKey : ∀ k p, cacheLookup c k = some p → p.id = k
  closed : ∀ k p q, cacheLookup c k = some p → q ∈ p.parents → q ∈ cacheKeys c
  parentsNodup : ∀ k p, cacheLookup c k = some p → p.parents.Nodup

/-- Well-formedness of the generations dict: the level keys are unique and no
level's list records the same person twice. -/
def GensWF (gens : Gens) : Prop :=
  (gens.map Prod.fst).Nodup ∧ ∀ e ∈ gens, e.2.Nodup

/-- A rank function witnessing that parent links form a DAG: every stored
parent link strictly decreases the rank from child to parent.  A finite graph
admits such a function exactly when its parent links are acyclic. -/
def HasRank (c : PeopleCache) (rank : PId → Nat) : Prop :=
  ∀ e ∈ c, ∀ q ∈ e.2.parents, rank q < rank e.1

/-- Maximal number of parent links of any stored person. -/
def maxParents (c : PeopleCache) : Nat :=
  (c.map (fun e => e.2.parents.length)).foldr max 0

/-- Fuel sufficient to finish the traversal from a node of the given rank:
`1` visit for the node plus `P` subtraversals one rank down. -/
def rankFuel (P : Nat) : Nat → Nat
  | 0 => 1
  | k + 1 => 1 + P * rankFuel P k

/-! ## The single-child ancestor chain of depth `D` (spec §8, claim about the
LayoutEngine): record `i` whose only parent is the chain starting at `i+1`. -/

/-- Chain record `chainRaw i n`: nested raw record with ids `i, i+1, …, i+n`, each record
having exactly one parent record (the next id), the last none. -/
def chainRaw (i : Nat) : Nat → RawRecord
  | 0 => .mk (some (i : Int)) (some "P") none none none none none []
  | n + 1 => .mk (some (i : Int)) (some "P") none none none none none [chainRaw (i + 1) n]

/-- The person the loader builds for chain node `i`; `link` tells whether it
has a parent link to `i+1`. -/
def chainPerson (i : Nat) (link : Bool) : Person :=
  { id := some (i : Int), name := "P", birth_year := none, photo := none,
    type := "person", stock := false,
    parents := if link then [some ((i + 1 : Nat) : Int)] else [] }

/-- The cache the loader builds for `chainRaw i n`. -/
def chainCache (i : Nat) : Nat → PeopleCache
  | 0 => [(some (i : Int), chainPerson i false)]
  | n + 1 => (some (i : Int), chainPerson i true) :: chainCache (i + 1) n

/-- The generations dict of the depth-`D` chain: level `k` holds exactly
person `k`. -/
def chainGens (D : Nat) : Gens :=
  (List.range (D + 1)).map (fun k => (k, [some (k : Int)]))

/-! ## Concrete input fixtures used by the example conjuncts, witnesses and
counterexamples -/

/-- The spec's end-to-end example: root `{id:1, name:"Ada Lovelace",
birthyear:"1815", parents:[{id:2,…},{id:3,…}]}`. -/
def rawA : RawRecord :=
  .mk (some 1) (some "Ada Lovelace") (some "1815") none (some "root") none (some 3)
    [.mk (some 2) (some "Byron") none none none none none [],
     .mk (some 3) (some "Anne Isabella Milbanke") none none none none none []]

/-- A record in which id 4 appears, fully re-serialized, under two different
children: person 4 is a parent of person 2 and also of the root —
re-convergent via paths of different lengths. -/
def rawShared : RawRecord :=
  .mk (some 1) (some "Child") none none none none none
    [.mk (some 2) (some "P2") none none none none none
       [.mk (some 4) (some "G4") none none none none none []],
     .mk (some 4) (some "G4") none none none none none []]

/-- A root record with no `id` field. -/
def rawNoId : RawRecord :=
  .mk none (some "X") none none none none none []

/-- A person whose `birth_year` is present but the empty string (falsy in
Python). -/
def pEmptyBirth : Person :=
  { id := some 1, name := "Ada Lovelace", birth_year := some "", photo := none,
    type := "person", stock := false, parents := [] }

/-- A person with a three-token name and a birth year. -/
def pAnne : Person :=
  { id := some 3, name := "Anne Isabella Milbanke", birth_year := some "1792",
    photo := none, type := "person", stock := false, parents := [] }

/-- The claim's "each person is recorded at exactly one generation level":
any person occurring at two levels of the dict occurs at equal levels. -/
def personAtOneLevel (gens : Gens) : Prop :=
  ∀ e1 ∈ gens, ∀ e2 ∈ gens, ∀ p ∈ e1.2, p ∈ e2.2 → e1.1 = e2.1

/-! ## Basic lemmas about the cache operations -/

theorem cacheKeys_nil : cacheKeys [] = [] := rfl

theorem cacheKeys_append (c d : PeopleCache) :
    cacheKeys (c ++ d) = cacheKeys c ++ cacheKeys d := by
  simp [cacheKeys]

theorem cacheLookup_isSome_iff {c : PeopleCache} {k : PId} :
    (cacheLookup c k).isSome ↔ k ∈ cacheKeys c := by
  induction c with
  | nil => simp [cacheLookup, cacheKeys]
  | cons e rest ih =>
    obtain ⟨k', p⟩ := e
    by_cases h : k' = k <;> simp [cacheLookup, cacheKeys, h, ih]
    exact fun h' => absurd h'.symm h

theorem cacheLookup_eq_none_iff {c : PeopleCache} {k : PId} :
    cacheLookup c k = none ↔ k ∉ cacheKeys c := by
  rw [← cacheLookup_isSome_iff, Option.isSome_iff_exists]
  constructor
  · rintro h ⟨p, hp⟩; simp [h] at hp
  · intro h
    cases hl : cacheLookup c k with
    | none => rfl
    | some p => exact absurd ⟨p, rfl⟩ (hl ▸ h)

theorem mem_cacheKeys_of_lookup {c : PeopleCache} {k : PId} {p : Person}
    (h : cacheLookup c k = some p) : k ∈ cacheKeys c := by
  rw [← cacheLookup_isSome_iff, h]; rfl

theorem cacheContains_iff {c : PeopleCache} {k : PId} :
    cacheContains c k = true ↔ k ∈ cacheKeys c := by
  induction c with
  | nil => simp [cacheContains, cacheKeys]
  | cons e rest ih =>
    obtain ⟨k', p⟩ := e
    by_cases h : k' = k <;> simp [cacheContains, cacheKeys, h, ih]
    exact fun h' => absurd h'.symm h

theorem cacheContains_eq_false_iff {c : PeopleCache} {k : PId} :
    cacheContains c k = false ↔ k ∉ cacheKeys c := by
  rw [← cacheContains_iff, Bool.not_eq_true]

theorem cacheLookup_append_left {c : PeopleCache} {k : PId} (d : PeopleCache)
    (h : k ∈ cacheKeys c) : cacheLookup (c ++ d) k = cacheLookup c k := by
  induction c with
  | nil => simp [cacheKeys] at h
  | cons e rest ih =>
    obtain ⟨k', p⟩ := e
    by_cases hk : k' = k
    · simp [cacheLookup, hk]
    · simp only [cacheKeys, List.map_cons, List.mem_cons] at h
      rcases h with h | h
      · exact absurd h.symm hk
      · simp [cacheLookup, hk, ih h]

theorem cacheLookup_append_right {c : PeopleCache} {k : PId} (d : PeopleCache)
    (h : k ∉ cacheKeys c) : cacheLookup (c ++ d) k = cacheLookup d k := by
  induction c with
  | nil => simp
  | cons e rest ih =>
    obtain ⟨k', p⟩ := e
    simp only [cacheKeys, List.map_cons, List.mem_cons, not_or] at h
    have hk : k' ≠ k := fun hh => h.1 hh.symm
    simp only [List.cons_append, cacheLookup, if_neg hk]
    exact ih h.2

theorem cacheLookup_mem {c : PeopleCache} {k : PId} {p : Person}
    (h : cacheLookup c k = some p) : (k, p) ∈ c := by
  induction c with
  | nil => simp [cacheLookup] at h
  | cons e rest ih =>
    obtain ⟨k', p'⟩ := e
    by_cases hk : k' = k
    · subst hk
      simp [cacheLookup] at h
      simp [h]
    · simp only [cacheLookup, if_neg hk] at h
      exact List.mem_cons_of_mem _ (ih h)

/-! ## Lemmas about `addParent` -/

theorem addParent_subset (l : List PId) (q : PId) : l ⊆ addParent l q := by
  unfold addParent
  split <;> simp

theorem mem_addParent (l : List PId) (q : PId) : q ∈ addParent l q := by
  unfold addParent
  split
  · assumption
  · simp

theorem addParent_nodup {l : List PId} (h : l.Nodup) (q : PId) :
    (addParent l q).Nodup := by
  unfold addParent
  split
  · exact h
  · next hq => simp [List.nodup_append, h, hq]

theorem addParent_of_mem {l : List PId} {q : PId} (h : q ∈ l) :
    addParent l q = l := by
  simp [addParent, h]

theorem mem_addParent_iff {l : List PId} {q r : PId} :
    r ∈ addParent l q ↔ r ∈ l ∨ r = q := by
  unfold addParent
  split
  · next hq =>
    constructor
    · exact fun h => Or.inl h
    · rintro (h | rfl)
      · exact h
      · exact hq
  · simp [List.mem_append]

/-! ## Lemmas about `cacheAddParent` -/

theorem cacheKeys_cacheAddParent (c : PeopleCache) (s q : PId) :
    cacheKeys (cacheAddParent c s q) = cacheKeys c := by
  induction c with
  | nil => rfl
  | cons e rest ih =>
    obtain ⟨k, p⟩ := e
    by_cases h : k = s <;> simp [cacheAddParent, cacheKeys, h] at ih ⊢ <;> exact ih

theorem cacheLookup_cacheAddParent (c : PeopleCache) (s q k : PId) :
    cacheLookup (cacheAddParent c s q) k =
      if k = s then
        (cacheLookup c k).map (fun p => { p with parents := addParent p.parents q })
      else cacheLookup c k := by
  induction c with
  | nil => simp [cacheAddParent, cacheLookup]
  | cons e rest ih =>
    obtain ⟨k', p⟩ := e
    simp only [cacheAddParent, List.map_cons] at ih ⊢
    by_cases hs : k' = s
    · subst hs
      simp only [if_pos rfl]
      by_cases hk : k' = k
      · subst hk
        simp [cacheLookup]
      · have hk' : ¬k = k' := fun hh => hk hh.symm
        simp only [cacheLookup, if_neg hk, if_neg hk'] at ih ⊢
        exact ih
    · simp only [if_neg hs]
      by_cases hk : k' = k
      · subst hk
        have hks : ¬k' = s := hs
        simp [cacheLookup, if_neg hks]
      · simp only [cacheLookup, if_neg hk] at ih ⊢
        exact ih

theorem cacheAddParent_append (c d : PeopleCache) (s q : PId) :
    cacheAddParent (c ++ d) s q = cacheAddParent c s q ++ cacheAddParent d s q := by
  simp [cacheAddParent]

theorem cacheAddParent_of_not_mem {c : PeopleCache} {s : PId} (q : PId)
    (h : s ∉ cacheKeys c) : cacheAddParent c s q = c := by
  induction c with
  | nil => rfl
  | cons e rest ih =>
    obtain ⟨k, p⟩ := e
    simp only [cacheKeys, List.map_cons, List.mem_cons, not_or] at h
    have hk : k ≠ s := fun hh => h.1 hh.symm
    simp only [cacheAddParent, List.map_cons, if_neg hk] at ih ⊢
    rw [ih h.2]

/-! ## Lemmas about `Reaches` -/

theorem Reaches.concat {c : PeopleCache} {a b d : PId}
    (hab : Reaches c a b) (hbd : Reaches c b d) : Reaches c a d := by
  induction hbd with
  | refl => exact hab
  | step _ hl hm ih => exact .step ih hl hm

/-- One parent-link hop. -/
theorem Reaches.single {c : PeopleCache} {a r : PId} {p : Person}
    (hl : cacheLookup c a = some p) (hm : r ∈ p.parents) : Reaches c a r :=
  .step (.refl a) hl hm

theorem EdgeExt.refl (c : PeopleCache) : EdgeExt c c :=
  fun _ p h => ⟨p, h, fun _ hq => hq⟩

theorem EdgeExt.compose {c₁ c₂ c₃ : PeopleCache} (h₁ : EdgeExt c₁ c₂)
    (h₂ : EdgeExt c₂ c₃) : EdgeExt c₁ c₃ := by
  intro k p hl
  obtain ⟨p', hl', hs'⟩ := h₁ k p hl
  obtain ⟨p'', hl'', hs''⟩ := h₂ k p' hl'
  exact ⟨p'', hl'', fun q hq => hs'' (hs' hq)⟩

theorem Reaches.mono {c c' : PeopleCache} (hext : EdgeExt c c') {a b : PId}
    (h : Reaches c a b) : Reaches c' a b := by
  induction h with
  | refl => exact .refl _
  | step _ hl hm ih =>
    obtain ⟨p', hl', hs'⟩ := hext _ _ hl
    exact .step ih hl' (hs' hm)

theorem EdgeExt.keys_sub {c c' : PeopleCache} (h : EdgeExt c c') {k : PId}
    (hk : k ∈ cacheKeys c) : k ∈ cacheKeys c' := by
  rw [← cacheLookup_isSome_iff] at hk ⊢
  obtain ⟨p, hp⟩ := Option.isSome_iff_exists.mp hk
  obtain ⟨p', hp', -⟩ := h k p hp
  simp [hp']

/-! ## Well-formedness invariant of the parse cache -/

theorem mkPerson_id (r : RawRecord) : (mkPerson r).id = r.id := by
  cases r; rfl

theorem mkPerson_parents (r : RawRecord) : (mkPerson r).parents = [] := by
  cases r; rfl

theorem CacheWF.nil : CacheWF [] where
  nodupKeys := List.nodup_nil
  idEqKey := by intro k p h; simp [cacheLookup] at h
  closed := by intro k p q h; simp [cacheLookup] at h
  parentsNodup := by intro k p h; simp [cacheLookup] at h

/-- Caching a freshly constructed person (`people_cache[person_id] = person`
with `parents=[]`) preserves the invariant when the id is new. -/
theorem CacheWF.insertFresh {c : PeopleCache} (h : CacheWF c) (r : RawRecord)
    (hf : r.id ∉ cacheKeys c) : CacheWF (c ++ [(r.id, mkPerson r)]) := by
  have hkeys : cacheKeys (c ++ [(r.id, mkPerson r)]) = cacheKeys c ++ [r.id] := by
    simp [cacheKeys_append, cacheKeys]
  have hlook : ∀ k, cacheLookup (c ++ [(r.id, mkPerson r)]) k =
      if k ∈ cacheKeys c then cacheLookup c k
      else if r.id = k then some (mkPerson r) else none := by
    intro k
    by_cases hk : k ∈ cacheKeys c
    · rw [cacheLookup_append_left _ hk, if_pos hk]
    · rw [cacheLookup_append_right _ hk, if_neg hk]; rfl
  refine ⟨?_, ?_, ?_, ?_⟩
  · rw [hkeys]
    simp [List.nodup_append, h.nodupKeys, hf]
  · intro k p hp
    rw [hlook] at hp
    split at hp
    · exact h.idEqKey k p hp
    · split at hp
      · next he =>
        cases hp
        rw [mkPerson_id]
        exact he
      · cases hp
  · intro k p q hp hq
    rw [hlook] at hp
    split at hp
    · next hk =>
      rw [hkeys]
      exact List.mem_append_left _ (h.closed k p q hp hq)
    · split at hp
      · cases hp
        rw [mkPerson_parents] at hq
        cases hq
      · cases hp
  · intro k p hp
    rw [hlook] at hp
    split at hp
    · exact h.parentsNodup k p hp
    · split at hp
      · cases hp
        rw [mkPerson_parents]
        exact List.nodup_nil
      · cases hp

/-- Mutation `person.add_parent(parent)` on the cached person at `selfId` preserves the
invariant, provided the new parent reference is itself a cache key. -/
theorem CacheWF.addParentStep {c : PeopleCache} (h : CacheWF c) (s q : PId)
    (hq : q ∈ cacheKeys c) : CacheWF (cacheAddParent c s q) := by
  have hkeys := cacheKeys_cacheAddParent c s q
  refine ⟨?_, ?_, ?_, ?_⟩
  · rw [hkeys]; exact h.nodupKeys
  · intro k p hp
    rw [cacheLookup_cacheAddParent] at hp
    split at hp
    · cases hl : cacheLookup c k with
      | none => rw [hl] at hp; cases hp
      | some p0 =>
        rw [hl] at hp
        cases hp
        exact h.idEqKey k p0 hl
    · exact h.idEqKey k p hp
  · intro k p r hp hr
    rw [hkeys]
    rw [cacheLookup_cacheAddParent] at hp
    split at hp
    · cases hl : cacheLookup c k with
      | none => rw [hl] at hp; cases hp
      | some p0 =>
        rw [hl] at hp
        cases hp
        rcases mem_addParent_iff.mp hr with hr' | hr'
        · exact h.closed k p0 r hl hr'
        · exact hr' ▸ hq
    · exact h.closed k p r hp hr
  · intro k p hp
    rw [cacheLookup_cacheAddParent] at hp
    split at hp
    · cases hl : cacheLookup c k with
      | none => rw [hl] at hp; cases hp
      | some p0 =>
        rw [hl] at hp
        cases hp
        exact addParent_nodup (h.parentsNodup k p0 hl) q
    · exact h.parentsNodup k p hp

/-- A lookup-preserving step keeps every key. -/
theorem keys_sub_of_frame {c c' : PeopleCache}
    (h : ∀ k, k ∈ cacheKeys c → cacheLookup c' k = cacheLookup c k) :
    ∀ k, k ∈ cacheKeys c → k ∈ cacheKeys c' := by
  intro k hk
  rw [← cacheLookup_isSome_iff, h k hk, cacheLookup_isSome_iff]
  exact hk

/-! ## The main invariant of `parse_person` / the parents loop

Proved by mutual structural induction over the raw record.  For
`parsePerson r c` (with well-formed `c`): the result cache is well-formed,
the returned reference is `r.id`, bindings of existing keys are untouched,
`r.id` is bound afterwards, and every newly added key is reachable from
`r.id`.  For the parents loop at `selfId`: the result is well-formed, bindings
of keys other than `selfId` are untouched, every stored person keeps its
parent links (possibly extended), and every newly added key is reachable from
`selfId`. -/

mutual

theorem parsePerson_wf : ∀ (r : RawRecord) (c : PeopleCache), CacheWF c →
    CacheWF (parsePerson r c).1 ∧ (parsePerson r c).2 = r.id ∧
    (∀ k, k ∈ cacheKeys c → cacheLookup (parsePerson r c).1 k = cacheLookup c k) ∧
    r.id ∈ cacheKeys (parsePerson r c).1 ∧
    (∀ k, k ∈ cacheKeys (parsePerson r c).1 →
      k ∈ cacheKeys c ∨ Reaches (parsePerson r c).1 r.id k)
  | .mk i n b ph t st li ps, c, hwf => by
    by_cases hc : cacheContains c i
    · have hres : parsePerson (.mk i n b ph t st li ps) c = (c, i) := by
        simp [parsePerson, hc]
      rw [hres]
      refine ⟨hwf, rfl, fun k _ => rfl, ?_, fun k hk => Or.inl hk⟩
      exact cacheContains_iff.mp hc
    · have hfresh : i ∉ cacheKeys c := cacheContains_eq_false_iff.mp (by simpa using hc)
      have hwf1 : CacheWF (c ++ [(i, mkPerson (.mk i n b ph t st li ps))]) :=
        hwf.insertFresh (.mk i n b ph t st li ps) hfresh
      have hkeys1 : cacheKeys (c ++ [(i, mkPerson (.mk i n b ph t st li ps))]) =
          cacheKeys c ++ [i] := by
        simp [cacheKeys_append, cacheKeys]
      have hs1 : i ∈ cacheKeys (c ++ [(i, mkPerson (.mk i n b ph t st li ps))]) := by
        rw [hkeys1]; simp
      obtain ⟨b1, b2, b3, b4⟩ := parseParents_wf ps i _ hwf1 hs1
      have hres : parsePerson (.mk i n b ph t st li ps) c =
          (parseParents ps i (c ++ [(i, mkPerson (.mk i n b ph t st li ps))]), i) := by
        simp [parsePerson, hc]
      rw [hres]
      refine ⟨b1, rfl, ?_, ?_, ?_⟩
      · intro k hk
        have hki : k ≠ i := fun hh => hfresh (hh ▸ hk)
        rw [b2 k (by rw [hkeys1]; exact List.mem_append_left _ hk) hki]
        exact cacheLookup_append_left _ hk
      · exact b3.keys_sub hs1
      · intro k hk
        rcases b4 k hk with hk' | hk'
        · rw [hkeys1] at hk'
          rcases List.mem_append.mp hk' with h' | h'
          · exact Or.inl h'
          · right
            rw [List.mem_singleton] at h'
            exact h' ▸ .refl _
        · exact Or.inr hk'

theorem parseParents_wf : ∀ (rs : List RawRecord) (selfId : PId) (c : PeopleCache),
    CacheWF c → selfId ∈ cacheKeys c →
    CacheWF (parseParents rs selfId c) ∧
    (∀ k, k ∈ cacheKeys c → k ≠ selfId →
      cacheLookup (parseParents rs selfId c) k = cacheLookup c k) ∧
    EdgeExt c (parseParents rs selfId c) ∧
    (∀ k, k ∈ cacheKeys (parseParents rs selfId c) →
      k ∈ cacheKeys c ∨ Reaches (parseParents rs selfId c) selfId k)
  | [], selfId, c, hwf, _ => by
    have hres : parseParents [] selfId c = c := by simp [parseParents]
    rw [hres]
    exact ⟨hwf, fun k _ _ => rfl, EdgeExt.refl c, fun k hk => Or.inl hk⟩
  | r :: rest, selfId, c, hwf, hs => by
    obtain ⟨a1, a2, a3, a4, a5⟩ := parsePerson_wf r c hwf
    have hkeys_sub : ∀ k, k ∈ cacheKeys c → k ∈ cacheKeys (parsePerson r c).1 :=
      keys_sub_of_frame a3
    have hpid : (parsePerson r c).2 ∈ cacheKeys (parsePerson r c).1 := a2 ▸ a4
    have hwf2 : CacheWF (cacheAddParent (parsePerson r c).1 selfId (parsePerson r c).2) :=
      a1.addParentStep _ _ hpid
    have hkeys2 : cacheKeys (cacheAddParent (parsePerson r c).1 selfId (parsePerson r c).2) =
        cacheKeys (parsePerson r c).1 := cacheKeys_cacheAddParent _ _ _
    have hs2 : selfId ∈ cacheKeys (cacheAddParent (parsePerson r c).1 selfId (parsePerson r c).2) := by
      rw [hkeys2]; exact hkeys_sub _ hs
    obtain ⟨b1, b2, b3, b4⟩ := parseParents_wf rest selfId _ hwf2 hs2
    have hres : parseParents (r :: rest) selfId c =
        parseParents rest selfId (cacheAddParent (parsePerson r c).1 selfId (parsePerson r c).2) := by
      simp [parseParents]
    rw [hres]
    -- the three edge-extension pieces
    have hE1 : EdgeExt c (parsePerson r c).1 := by
      intro k p hp
      exact ⟨p, (a3 k (mem_cacheKeys_of_lookup hp)).trans hp, fun x hx => hx⟩
    have hE2 : EdgeExt (parsePerson r c).1
        (cacheAddParent (parsePerson r c).1 selfId (parsePerson r c).2) := by
      intro k p hp
      rw [cacheLookup_cacheAddParent]
      by_cases hk : k = selfId
      · rw [if_pos hk, hp]
        exact ⟨_, rfl, addParent_subset _ _⟩
      · rw [if_neg hk]
        exact ⟨p, hp, fun x hx => hx⟩
    have hE23 : EdgeExt (parsePerson r c).1 (parseParents rest selfId _) := hE2.compose b3
    refine ⟨b1, ?_, (hE1.compose hE23), ?_⟩
    · intro k hk hks
      rw [b2 k (by rw [hkeys2]; exact hkeys_sub _ hk) hks,
        cacheLookup_cacheAddParent, if_neg hks]
      exact a3 k hk
    · intro k hk
      rcases b4 k hk with hk' | hk'
      · rw [hkeys2] at hk'
        rcases a5 k hk' with h' | h'
        · exact Or.inl h'
        · right
          -- k is reachable from r.id in the intermediate cache; selfId now
          -- links to r.id, so k is reachable from selfId in the final cache.
          have hreach : Reaches (parseParents rest selfId
              (cacheAddParent (parsePerson r c).1 selfId (parsePerson r c).2)) r.id k :=
            h'.mono hE23
          obtain ⟨pSelf, hpSelf⟩ := Option.isSome_iff_exists.mp
            (cacheLookup_isSome_iff.mpr (hkeys_sub _ hs))
          have hedge : Reaches (cacheAddParent (parsePerson r c).1 selfId (parsePerson r c).2)
              selfId (parsePerson r c).2 := by
            refine Reaches.single (p := { pSelf with
              parents := addParent pSelf.parents (parsePerson r c).2 }) ?_ ?_
            · rw [cacheLookup_cacheAddParent, if_pos rfl, hpSelf]; rfl
            · exact mem_addParent _ _
          have hedge2 : Reaches (parseParents rest selfId
              (cacheAddParent (parsePerson r c).1 selfId (parsePerson r c).2)) selfId r.id := by
            rw [← a2]; exact hedge.mono b3
          exact hedge2.concat hreach
      · exact Or.inr hk'

end

/-! ## Consequences for `parseTreeData` -/

theorem parseTreeData_wf (r : RawRecord) :
    CacheWF (parseTreeData r).all_people ∧ (parseTreeData r).root = r.id ∧
    r.id ∈ cacheKeys (parseTreeData r).all_people ∧
    (∀ k, k ∈ cacheKeys (parseTreeData r).all_people →
      Reaches (parseTreeData r).all_people r.id k) := by
  obtain ⟨h1, h2, -, h4, h5⟩ := parsePerson_wf r [] CacheWF.nil
  refine ⟨h1, h2, h4, ?_⟩
  intro k hk
  rcases h5 k hk with h | h
  · simp [cacheKeys] at h
  · exact h

/-- With a closed well-formed cache, everything reachable from a key is a key. -/
theorem reaches_mem_keys {c : PeopleCache} (hwf : CacheWF c) {s k : PId}
    (hs : s ∈ cacheKeys c) (h : Reaches c s k) : k ∈ cacheKeys c := by
  induction h with
  | refl => exact hs
  | step _ hl hm _ => exact hwf.closed _ _ _ hl hm

/-! ## Lemmas about `assignGen` (generation assignment) -/

/-- More fuel never changes a completed run. -/
theorem assignGen_succ {c : PeopleCache} :
    ∀ (fuel : Nat) (stack : List (PId × Nat)) (gens res : Gens),
      assignGen c fuel stack gens = some res →
      assignGen c (fuel + 1) stack gens = some res := by
  intro fuel
  induction fuel with
  | zero =>
    intro stack gens res h
    cases stack with
    | nil => exact h
    | cons e st => simp [assignGen] at h
  | succ f ih =>
    intro stack gens res h
    cases stack with
    | nil => exact h
    | cons e st =>
      obtain ⟨pid, level⟩ := e
      simp only [assignGen] at h ⊢
      exact ih _ _ _ h

theorem assignGen_mono {c : PeopleCache} {fuel fuel' : Nat} (hle : fuel ≤ fuel')
    {stack : List (PId × Nat)} {gens res : Gens}
    (h : assignGen c fuel stack gens = some res) :
    assignGen c fuel' stack gens = some res := by
  induction hle with
  | refl => exact h
  | step _ ih => exact assignGen_succ _ _ _ _ ih

theorem gensAdd_wf {gens : Gens} (h : GensWF gens) (level : Nat) (p : PId) :
    GensWF (gensAdd gens level p) := by
  unfold gensAdd
  split
  · constructor
    · have : (gens.map (fun lp =>
          if lp.1 = level then (lp.1, if p ∈ lp.2 then lp.2 else lp.2 ++ [p]) else lp)).map
            Prod.fst = gens.map Prod.fst := by
        rw [List.map_map]
        refine List.map_congr_left ?_
        intro e _
        by_cases he : e.1 = level <;> simp [he]
      rw [this]
      exact h.1
    · intro e he
      rw [List.mem_map] at he
      obtain ⟨e0, he0, heq⟩ := he
      by_cases h0 : e0.1 = level
      · rw [if_pos h0] at heq
        subst heq
        by_cases hp : p ∈ e0.2
        · simpa [hp] using h.2 e0 he0
        · simp only [if_neg hp]
          simp [List.nodup_append, h.2 e0 he0, hp]
      · rw [if_neg h0] at heq
        subst heq
        exact h.2 e0 he0
  · next hnone =>
    constructor
    · have hlev : level ∉ gens.map Prod.fst := by
        intro hmem
        rw [List.mem_map] at hmem
        obtain ⟨e, he, heq⟩ := hmem
        rw [List.any_eq_true] at hnone
        exact hnone ⟨e, he, by simp [heq]⟩
      simp [List.nodup_append, h.1, hlev]
    · intro e he
      rcases List.mem_append.mp he with he | he
      · exact h.2 e he
      · rw [List.mem_singleton] at he
        subst he
        exact List.nodup_singleton p

/-- Function `assign_generation` preserves the generations-dict invariant. -/
theorem assignGen_gensWF {c : PeopleCache} :
    ∀ (fuel : Nat) (stack : List (PId × Nat)) (gens res : Gens),
      GensWF gens → assignGen c fuel stack gens = some res → GensWF res := by
  intro fuel
  induction fuel with
  | zero =>
    intro stack gens res hwf h
    cases stack with
    | nil => cases h; exact hwf
    | cons e st => simp [assignGen] at h
  | succ f ih =>
    intro stack gens res hwf h
    cases stack with
    | nil => cases h; exact hwf
    | cons e st =>
      obtain ⟨pid, level⟩ := e
      simp only [assignGen] at h
      exact ih _ _ _ (gensAdd_wf hwf level pid) h

/-! ## Termination of generation assignment on a ranked (DAG) cache -/

theorem rankFuel_pos (P k : Nat) : 1 ≤ rankFuel P k := by
  cases k <;> simp [rankFuel]

theorem rankFuel_le_succ (P k : Nat) : rankFuel P k ≤ rankFuel P (k + 1) := by
  induction k with
  | zero => simp [rankFuel]
  | succ m ih =>
    have : P * rankFuel P m ≤ P * rankFuel P (m + 1) := Nat.mul_le_mul_left P ih
    simpa [rankFuel] using this

theorem rankFuel_mono (P : Nat) {k m : Nat} (h : k ≤ m) :
    rankFuel P k ≤ rankFuel P m := by
  induction h with
  | refl => exact le_rfl
  | step _ ih => exact ih.trans (rankFuel_le_succ _ _)

theorem length_le_maxParents {c : PeopleCache} {e : PId × Person} (he : e ∈ c) :
    e.2.parents.length ≤ maxParents c := by
  unfold maxParents
  induction c with
  | nil => cases he
  | cons x rest ih =>
    rcases List.mem_cons.mp he with he | he
    · subst he
      exact Nat.le_max_left _ _
    · exact (ih he).trans (Nat.le_max_right _ _)

theorem foldr_max_le_of_mem {l : List Nat} {x a : Nat} (h : x ∈ l) :
    x ≤ l.foldr max a := by
  induction l with
  | nil => cases h
  | cons y rest ih =>
    rcases List.mem_cons.mp h with h | h
    · subst h; exact Nat.le_max_left _ _
    · exact (ih h).trans (Nat.le_max_right _ _)

/-- Fuel covering the stack finishes the traversal: on a ranked cache,
`assign_generation` cannot run forever. -/
theorem assignGen_isSome {c : PeopleCache} {rank : PId → Nat} (hr : HasRank c rank) :
    ∀ (fuel : Nat) (stack : List (PId × Nat)) (gens : Gens),
      (stack.map (fun e => rankFuel (maxParents c) (rank e.1))).sum ≤ fuel →
      (assignGen c fuel stack gens).isSome := by
  intro fuel
  induction fuel with
  | zero =>
    intro stack gens hsum
    cases stack with
    | nil => simp [assignGen]
    | cons e st =>
      exfalso
      simp only [List.map_cons, List.sum_cons, Nat.le_zero] at hsum
      have := rankFuel_pos (maxParents c) (rank e.1)
      omega
  | succ f ih =>
    intro stack gens hsum
    cases stack with
    | nil => simp [assignGen]
    | cons e st =>
      obtain ⟨pid, level⟩ := e
      simp only [assignGen]
      apply ih
      simp only [List.map_cons, List.sum_cons] at hsum
      rw [List.map_append, List.sum_append]
      have hst : (st.map (fun e => rankFuel (maxParents c) (rank e.1))).sum ≤
          (st.map (fun e => rankFuel (maxParents c) (rank e.1))).sum := le_rfl
      cases hl : cacheLookup c pid with
      | none =>
        simp only [hl, Option.elim]
        have := rankFuel_pos (maxParents c) (rank pid)
        simp only [List.map_nil, List.sum_nil, Nat.zero_add]
        omega
      | some p =>
        simp only [hl, Option.elim]
        have hmem : (pid, p) ∈ c := cacheLookup_mem hl
        by_cases hpar : p.parents = []
        · rw [hpar]
          have := rankFuel_pos (maxParents c) (rank pid)
          simp only [List.map_nil, List.sum_nil, Nat.zero_add]
          omega
        · -- every parent has strictly smaller rank, so rank pid = m + 1
          obtain ⟨q0, hq0⟩ := List.exists_mem_of_ne_nil _ hpar
          have hne : rank q0 < rank pid := hr (pid, p) hmem q0 hq0
          obtain ⟨m, hm⟩ : ∃ m, rank pid = m + 1 := ⟨rank pid - 1, by omega⟩
          have hbound : ∀ x ∈ (p.parents.map (fun q => (q, level + 1))).map
              (fun e => rankFuel (maxParents c) (rank e.1)),
              x ≤ rankFuel (maxParents c) m := by
            intro x hx
            rw [List.map_map, List.mem_map] at hx
            obtain ⟨q, hq, hxq⟩ := hx
            have hlt : rank q < rank pid := hr (pid, p) hmem q hq
            rw [hm] at hlt
            subst hxq
            show rankFuel (maxParents c) (rank q) ≤ rankFuel (maxParents c) m
            exact rankFuel_mono _ (by omega)
          have hsumpar : ((p.parents.map (fun q => (q, level + 1))).map
              (fun e => rankFuel (maxParents c) (rank e.1))).sum ≤
              maxParents c * rankFuel (maxParents c) m := by
            calc ((p.parents.map (fun q => (q, level + 1))).map
                (fun e => rankFuel (maxParents c) (rank e.1))).sum
                ≤ ((p.parents.map (fun q => (q, level + 1))).map
                  (fun e => rankFuel (maxParents c) (rank e.1))).length *
                  rankFuel (maxParents c) m := by
                  exact List.sum_le_card_nsmul _ _ hbound
              _ ≤ maxParents c * rankFuel (maxParents c) m := by
                  apply Nat.mul_le_mul_right
                  simpa using length_le_maxParents hmem
          have hfuel : rankFuel (maxParents c) (rank pid) =
              1 + maxParents c * rankFuel (maxParents c) m := by
            rw [hm]; rfl
          omega

/-- Predicate `HasRank` only ever mentions rank values of ids present in the cache, so
the root's rank bounds the traversal from the root. -/
theorem getGenerations_isSome {t : Tree} {rank : PId → Nat}
    (hr : HasRank t.all_people rank) :
    (getGenerations t (rankFuel (maxParents t.all_people) (rank t.root))).isSome := by
  unfold getGenerations
  exact assignGen_isSome hr _ _ _ (by simp)

/-! ## Parsing and traversing the single-child chain -/

theorem chainRaw_id (i n : Nat) : (chainRaw i n).id = some (i : Int) := by
  cases n <;> rfl

theorem chainRaw_lastId (i n : Nat) : (chainRaw i n).lastId = none := by
  cases n <;> rfl

theorem chainCache_keys_mem :
    ∀ (n i : Nat) (k : PId), k ∈ cacheKeys (chainCache i n) ↔
      ∃ j : Nat, i ≤ j ∧ j ≤ i + n ∧ k = some (j : Int) := by
  intro n
  induction n with
  | zero =>
    intro i k
    simp only [chainCache, cacheKeys, List.map_cons, List.map_nil, List.mem_singleton]
    constructor
    · intro h
      exact ⟨i, le_rfl, by omega, h⟩
    · rintro ⟨j, hij, hji, rfl⟩
      have : j = i := by omega
      subst this
      rfl
  | succ n ih =>
    intro i k
    simp only [chainCache, cacheKeys, List.map_cons, List.mem_cons]
    rw [show List.map Prod.fst (chainCache (i + 1) n) = cacheKeys (chainCache (i + 1) n) from rfl,
      ih (i + 1) k]
    constructor
    · rintro (rfl | ⟨j, h1, h2, rfl⟩)
      · exact ⟨i, le_rfl, by omega, rfl⟩
      · exact ⟨j, by omega, by omega, rfl⟩
    · rintro ⟨j, h1, h2, rfl⟩
      by_cases hj : j = i
      · subst hj; exact Or.inl rfl
      · exact Or.inr ⟨j, by omega, by omega, rfl⟩

theorem chainCache_lookup :
    ∀ (n i j : Nat), i ≤ j → j ≤ i + n →
      cacheLookup (chainCache i n) (some (j : Int)) =
        some (chainPerson j (decide (j < i + n))) := by
  intro n
  induction n with
  | zero =>
    intro i j h1 h2
    have : j = i := by omega
    subst this
    simp [chainCache, cacheLookup]
  | succ n ih =>
    intro i j h1 h2
    by_cases hj : j = i
    · subst hj
      have hd : j < j + (n + 1) := by omega
      simp [chainCache, cacheLookup, hd]
    · have hne : some ((i : Nat) : Int) ≠ some ((j : Nat) : Int) := by
        intro h
        apply hj
        have := Option.some.inj h
        exact_mod_cast this.symm
      simp only [chainCache, cacheLookup, if_neg hne]
      rw [ih (i + 1) j (by omega) (by omega)]
      have harith : i + 1 + n = i + (n + 1) := by omega
      rw [harith]

theorem chainRaw_parents_zero (i : Nat) : (chainRaw i 0).parents = [] := rfl

theorem chainRaw_parents_succ (i n : Nat) :
    (chainRaw i (n + 1)).parents = [chainRaw (i + 1) n] := rfl

theorem mkPerson_chainRaw (i n : Nat) :
    mkPerson (chainRaw i n) = chainPerson i false := by
  cases n <;> rfl

theorem chainCache_zero (i : Nat) : chainCache i 0 = [(some (i : Int), chainPerson i false)] := rfl

theorem chainCache_succ (i n : Nat) :
    chainCache i (n + 1) = (some (i : Int), chainPerson i true) :: chainCache (i + 1) n := rfl

/-- Unfolding of `parse_person` on a cache miss. -/
theorem parsePerson_not_contained {r : RawRecord} {c : PeopleCache}
    (hc : ¬cacheContains c r.id = true) :
    parsePerson r c = (parseParents r.parents r.id (c ++ [(r.id, mkPerson r)]), r.id) := by
  obtain ⟨i, n, b, ph, t, st, li, ps⟩ := r
  simp only [RawRecord.id, RawRecord.parents] at hc ⊢
  simp [parsePerson, hc]

/-- Unfolding of `parse_person` on a cache hit. -/
theorem parsePerson_contained {r : RawRecord} {c : PeopleCache}
    (hc : cacheContains c r.id = true) : parsePerson r c = (c, r.id) := by
  obtain ⟨i, n, b, ph, t, st, li, ps⟩ := r
  simp only [RawRecord.id] at hc ⊢
  simp [parsePerson, hc]

theorem parseParents_nil (s : PId) (c : PeopleCache) : parseParents [] s c = c := by
  simp [parseParents]

theorem parseParents_cons (r : RawRecord) (rest : List RawRecord) (s : PId)
    (c : PeopleCache) :
    parseParents (r :: rest) s c =
      parseParents rest s (cacheAddParent (parsePerson r c).1 s (parsePerson r c).2) := by
  simp [parseParents]

theorem parsePerson_chain :
    ∀ (n i : Nat) (c : PeopleCache),
      (∀ j : Nat, i ≤ j → j ≤ i + n → some (j : Int) ∉ cacheKeys c) →
      parsePerson (chainRaw i n) c = (c ++ chainCache i n, some (i : Int)) := by
  intro n
  induction n with
  | zero =>
    intro i c hfresh
    have hc : ¬cacheContains c (chainRaw i 0).id = true := by
      rw [chainRaw_id, cacheContains_iff]
      exact hfresh i le_rfl (by omega)
    rw [parsePerson_not_contained hc, chainRaw_parents_zero, chainRaw_id,
      mkPerson_chainRaw, parseParents_nil, chainCache_zero]
  | succ n ih =>
    intro i c hfresh
    have hc : ¬cacheContains c (chainRaw i (n + 1)).id = true := by
      rw [chainRaw_id, cacheContains_iff]
      exact hfresh i le_rfl (by omega)
    have hstep := ih (i + 1) (c ++ [(some (i : Int), chainPerson i false)])
      (by
        intro j hj1 hj2
        rw [cacheKeys_append]
        intro hmem
        rcases List.mem_append.mp hmem with h | h
        · exact hfresh j (by omega) (by omega) h
        · simp only [cacheKeys, chainPerson, List.map_cons, List.map_nil,
            List.mem_singleton, Option.some.injEq] at h
          have : j = i := by exact_mod_cast h
          omega)
    rw [parsePerson_not_contained hc, chainRaw_parents_succ, chainRaw_id,
      mkPerson_chainRaw, parseParents_cons, hstep]
    simp only
    have hnotc : some (i : Int) ∉ cacheKeys c := hfresh i le_rfl (by omega)
    have hnotchain : some (i : Int) ∉ cacheKeys (chainCache (i + 1) n) := by
      rw [chainCache_keys_mem]
      rintro ⟨j, hj1, hj2, hj3⟩
      have : i = j := by exact_mod_cast Option.some.inj hj3
      omega
    rw [parseParents_nil, cacheAddParent_append, cacheAddParent_append,
      cacheAddParent_of_not_mem _ hnotc, cacheAddParent_of_not_mem _ hnotchain]
    have hmid : cacheAddParent [(some (i : Int), chainPerson i false)] (some (i : Int))
        (some ((i + 1 : Nat) : Int)) = [(some (i : Int), chainPerson i true)] := by
      simp [cacheAddParent, addParent, chainPerson]
    rw [hmid, chainCache_succ]
    simp

/-- The chain loads to the expected tree. -/
theorem parseTreeData_chain (D : Nat) :
    parseTreeData (chainRaw 0 D) =
      { root := some (0 : Int), last_id := 0, all_people := chainCache 0 D } := by
  unfold parseTreeData
  rw [parsePerson_chain D 0 [] (by intro j _ _ h; simp [cacheKeys] at h)]
  simp [chainRaw_lastId]

/-- Steps `generations[level] = []; generations[level].append(person)` on a fresh
level key appends a new singleton binding. -/
theorem gensAdd_of_not_mem {gens : Gens} {level : Nat}
    (h : level ∉ gens.map Prod.fst) (p : PId) :
    gensAdd gens level p = gens ++ [(level, [p])] := by
  unfold gensAdd
  rw [if_neg]
  simp only [List.any_eq_true, decide_eq_true_eq, not_exists, not_and]
  intro e he heq
  exact h (List.mem_map.mpr ⟨e, he, heq⟩)

/-- Traversing the chain from node `j` (at level `j`) appends the singleton
levels `j, j+1, …, D` in order. -/
theorem assignGen_chain (D : Nat) :
    ∀ (n j : Nat), j + n = D → ∀ gens : Gens, (∀ e ∈ gens, e.1 < j) →
      assignGen (chainCache 0 D) (n + 1) [(some (j : Int), j)] gens =
        some (gens ++ (List.range (n + 1)).map
          (fun k => (j + k, [some ((j + k : Nat) : Int)]))) := by
  intro n
  induction n with
  | zero =>
    intro j hj gens hlt
    have hfresh : j ∉ gens.map Prod.fst := by
      intro hm
      rw [List.mem_map] at hm
      obtain ⟨e, he, heq⟩ := hm
      exact absurd (heq ▸ hlt e he) (lt_irrefl j)
    have hd : ¬(j < 0 + D) := by omega
    simp only [assignGen]
    rw [chainCache_lookup D 0 j (by omega) (by omega), decide_eq_false hd,
      gensAdd_of_not_mem hfresh]
    simp [chainPerson, assignGen, List.range_succ]
  | succ n ih =>
    intro j hj gens hlt
    have hfresh : j ∉ gens.map Prod.fst := by
      intro hm
      rw [List.mem_map] at hm
      obtain ⟨e, he, heq⟩ := hm
      exact absurd (heq ▸ hlt e he) (lt_irrefl j)
    have hd : j < 0 + D := by omega
    have hstep := ih (j + 1) (by omega) (gens ++ [(j, [some (j : Int)])])
      (by
        intro e he
        rcases List.mem_append.mp he with h | h
        · exact Nat.lt_succ_of_lt (hlt e h)
        · rw [List.mem_singleton] at h
          subst h
          exact Nat.lt_succ_self j)
    simp only [assignGen]
    rw [chainCache_lookup D 0 j (by omega) (by omega), decide_eq_true hd,
      gensAdd_of_not_mem hfresh]
    have hparents : (chainPerson j true).parents = [some ((j + 1 : Nat) : Int)] := by
      simp [chainPerson]
    simp only [Option.elim, hparents, List.map_cons, List.map_nil, List.nil_append,
      List.append_nil]
    rw [hstep]
    congr 1
    rw [List.append_assoc]
    congr 1
    rw [List.singleton_append]
    conv_rhs => rw [List.range_succ_eq_map, List.map_cons, List.map_map]
    congr 1
    apply List.map_congr_left
    intro k _
    simp only [Function.comp_apply, Nat.succ_eq_add_one]
    have harith : j + 1 + k = j + (k + 1) := by omega
    rw [harith]

/-- Running `get_generations` on the loaded chain produces one singleton level per
generation, levels `0 … D` in order. -/
theorem getGenerations_chain (D : Nat) :
    getGenerations (parseTreeData (chainRaw 0 D)) (D + 1) = some (chainGens D) := by
  rw [parseTreeData_chain]
  show assignGen (chainCache 0 D) (D + 1) [(some (0 : Int), 0)] [] = some (chainGens D)
  have h := assignGen_chain D D 0 (by omega) [] (by intro e he; cases he)
  have h0 : ((0 : Nat) : Int) = (0 : Int) := by norm_num
  rw [h0] at h
  rw [h]
  congr 1
  rw [List.nil_append]
  unfold chainGens
  apply List.map_congr_left
  intro k _
  simp

/-! ## Layout lemmas -/

theorem posInsert_of_not_mem {ps : List (PId × ℚ × ℚ)} {k : PId}
    (h : k ∉ ps.map Prod.fst) (v : ℚ × ℚ) : posInsert ps k v = ps ++ [(k, v)] := by
  unfold posInsert
  rw [if_neg]
  simp only [List.any_eq_true, decide_eq_true_eq, not_exists, not_and]
  intro e he heq
  exact h (List.mem_map.mpr ⟨e, he, heq⟩)

theorem xPositions_one : xPositions 1 = [0] := rfl

theorem foldr_max_le {l : List Nat} {a b : Nat} (ha : a ≤ b)
    (h : ∀ x ∈ l, x ≤ b) : l.foldr max a ≤ b := by
  induction l with
  | nil => exact ha
  | cons x rest ih =>
    simp only [List.foldr_cons]
    exact max_le (h x (by simp)) (ih fun y hy => h y (List.mem_cons_of_mem _ hy))

theorem chainGens_maxKey (D : Nat) : ((chainGens D).map Prod.fst).foldr max 0 = D := by
  have hmap : (chainGens D).map Prod.fst = List.range (D + 1) := by
    unfold chainGens
    rw [List.map_map]
    have hco : (Prod.fst ∘ fun k : Nat => ((k : Nat), [some ((k : Int))])) = id := rfl
    rw [hco, List.map_id]
  rw [hmap]
  apply le_antisymm
  · exact foldr_max_le (by omega) (fun x hx => by rw [List.mem_range] at hx; omega)
  · exact foldr_max_le_of_mem (by rw [List.mem_range]; omega)

/-- The per-level placement loop of `_calculate_layout` over singleton levels
with pairwise distinct fresh person references: each level appends its person
at `x = 0` and `y = maxGen*2 - level*2`. -/
theorem layout_foldl_singletons (M : Nat) :
    ∀ (pairs : List (Nat × PId)) (pos : List (PId × ℚ × ℚ)),
      (pairs.map Prod.snd).Nodup → (∀ e ∈ pairs, e.2 ∉ pos.map Prod.fst) →
      (pairs.map (fun e => (e.1, [e.2]))).foldl
        (fun pos lp =>
          (lp.2.zip (xPositions lp.2.length)).foldl
            (fun pos pv => posInsert pos pv.1 (pv.2, (M : ℚ) * 2 - (lp.1 : ℚ) * 2)) pos) pos
      = pos ++ pairs.map (fun e => (e.2, ((0 : ℚ), (M : ℚ) * 2 - (e.1 : ℚ) * 2))) := by
  intro pairs
  induction pairs with
  | nil =>
    intro pos _ _
    simp
  | cons e rest ih =>
    intro pos hnodup hfresh
    simp only [List.map_cons, List.foldl_cons, List.length_singleton, xPositions_one,
      List.zip_cons_cons, List.zip_nil_left, List.foldl_nil]
    rw [posInsert_of_not_mem (hfresh e (List.mem_cons_self _ _)) _]
    rw [List.map_cons, List.nodup_cons] at hnodup
    rw [ih (pos ++ [(e.2, (0 : ℚ), (M : ℚ) * 2 - (e.1 : ℚ) * 2)]) hnodup.2 ?_]
    · simp
    · intro e' he' hmem
      rw [List.map_append] at hmem
      rcases List.mem_append.mp hmem with h | h
      · exact hfresh e' (List.mem_cons_of_mem _ he') h
      · simp only [List.map_cons, List.map_nil, List.mem_singleton] at h
        exact hnodup.1 (h ▸ List.mem_map.mpr ⟨e', he', rfl⟩)

/-- Layout of the chain's generations: person `k` sits at `x = 0`,
`y = (D - k) * 2`; the root (level 0) has the largest `y`. -/
theorem calculateLayout_chain (D : Nat) :
    calculateLayout (chainGens D) =
      (List.range (D + 1)).map
        (fun k : Nat => (some (k : Int), ((0 : ℚ), (D : ℚ) * 2 - (k : ℚ) * 2))) := by
  have hpairs : chainGens D =
      ((List.range (D + 1)).map (fun k : Nat => ((k : Nat), some (k : Int)))).map
        (fun e => (e.1, [e.2])) := by
    unfold chainGens
    rw [List.map_map]
    rfl
  have hnodup : (((List.range (D + 1)).map (fun k : Nat => ((k : Nat), some (k : Int)))).map
      Prod.snd).Nodup := by
    rw [List.map_map]
    refine List.Nodup.map ?_ (List.nodup_range _)
    intro a b hab
    simp only [Function.comp_apply, Option.some.injEq] at hab
    exact_mod_cast hab
  unfold calculateLayout
  rw [chainGens_maxKey, hpairs,
    layout_foldl_singletons D _ [] hnodup (by intro e _ h; simp at h)]
  rw [List.nil_append, List.map_map]
  rfl

/-! ## Per-level x positions -/

theorem xPositions_length (n : Nat) : (xPositions n).length = n := by
  unfold xPositions
  split
  · next h => simp [h]
  · simp

/-- The per-person spacing `max(3.0, 8.0 / count)` is positive. -/
theorem xSpacing_pos (n : Nat) : (0 : ℚ) < max 3 (8 / (n : ℚ)) :=
  lt_of_lt_of_le (by norm_num) (le_max_left _ _)

theorem xPositions_getElem {n i : Nat} (hn : n ≠ 1) (hi : i < n) :
    (xPositions n)[i]? =
      some (((i : ℚ) - ((n : ℚ) - 1) / 2) * max 3 (8 / (n : ℚ))) := by
  unfold xPositions
  rw [if_neg hn, List.getElem?_map, List.getElem?_range hi]
  rfl

/-- The x positions strictly increase in the people's stored order. -/
theorem xPositions_pairwise_lt (n : Nat) : (xPositions n).Pairwise (· < ·) := by
  unfold xPositions
  split
  · exact List.pairwise_singleton _ _
  · refine List.Pairwise.map _ ?_ (List.pairwise_lt_range n)
    intro a b hab
    have hcast : (a : ℚ) < (b : ℚ) := by exact_mod_cast hab
    exact mul_lt_mul_of_pos_right (by linarith) (xSpacing_pos n)

/-- Positions at mirrored indices cancel: the level is symmetric about 0. -/
theorem xPositions_symm {n i : Nat} (hn : 1 < n) (hi : i < n) {a b : ℚ}
    (ha : (xPositions n)[i]? = some a) (hb : (xPositions n)[n - 1 - i]? = some b) :
    a + b = 0 := by
  have hn1 : n ≠ 1 := by omega
  rw [xPositions_getElem hn1 hi] at ha
  rw [xPositions_getElem hn1 (by omega)] at hb
  have hcast : ((n - 1 - i : Nat) : ℚ) = (n : ℚ) - 1 - (i : ℚ) := by
    have h1 : (1 : Nat) ≤ n := by omega
    have h2 : i ≤ n - 1 := by omega
    push_cast [Nat.cast_sub h2, Nat.cast_sub h1]
    ring
  cases ha
  cases hb
  rw [hcast]
  ring

/-- Consecutive positions differ by exactly the spacing `max(3, 8/n)`. -/
theorem xPositions_gap {n i : Nat} (hn : 1 < n) (hi : i + 1 < n) {a b : ℚ}
    (ha : (xPositions n)[i]? = some a) (hb : (xPositions n)[i + 1]? = some b) :
    b - a = max 3 (8 / (n : ℚ)) := by
  have hn1 : n ≠ 1 := by omega
  rw [xPositions_getElem hn1 (by omega)] at ha
  rw [xPositions_getElem hn1 hi] at hb
  cases ha
  cases hb
  push_cast
  ring

/-- The placement loop over one level's people with distinct fresh references
appends each person with their x position, in stored order. -/
theorem posInsert_foldl_fresh (y : ℚ) :
    ∀ (ps : List (PId × ℚ)) (pos : List (PId × ℚ × ℚ)),
      (ps.map Prod.fst).Nodup → (∀ e ∈ ps, e.1 ∉ pos.map Prod.fst) →
      ps.foldl (fun pos pv => posInsert pos pv.1 (pv.2, y)) pos =
        pos ++ ps.map (fun pv => (pv.1, (pv.2, y))) := by
  intro ps
  induction ps with
  | nil => intro pos _ _; simp
  | cons e rest ih =>
    intro pos hnodup hfresh
    simp only [List.foldl_cons]
    rw [posInsert_of_not_mem (hfresh e (List.mem_cons_self _ _)) _]
    rw [List.map_cons, List.nodup_cons] at hnodup
    rw [ih (pos ++ [(e.1, (e.2, y))]) hnodup.2 ?_]
    · simp
    · intro e' he' hmem
      rw [List.map_append] at hmem
      rcases List.mem_append.mp hmem with h | h
      · exact hfresh e' (List.mem_cons_of_mem _ he') h
      · simp only [List.map_cons, List.map_nil, List.mem_singleton] at h
        exact hnodup.1 (h ▸ List.mem_map.mpr ⟨e', he', rfl⟩)

/-- Layout of a single generation level: people are placed at their level's x
positions in stored order (`y = 0` since the level is also the deepest). -/
theorem calculateLayout_single_level (L : Nat) (people : List PId)
    (hnodup : people.Nodup) :
    calculateLayout [(L, people)] =
      (people.zip (xPositions people.length)).map (fun pv => (pv.1, (pv.2, (0 : ℚ)))) := by
  have hmax : (([(L, people)] : Gens).map Prod.fst).foldr max 0 = L := by
    simp
  unfold calculateLayout
  rw [hmax]
  simp only [List.foldl_cons, List.foldl_nil]
  have hfst : (people.zip (xPositions people.length)).map Prod.fst = people :=
    List.map_fst_zip _ _ (by rw [xPositions_length])
  rw [posInsert_foldl_fresh _ _ [] (by rw [hfst]; exact hnodup) (by intro e _ h; simp at h)]
  rw [List.nil_append]
  have hy : (L : ℚ) * 2 - (L : ℚ) * 2 = 0 := by ring
  rw [hy]

/-! ## Validation characterization -/

theorem pyCount_cons (a : PId) (l : List PId) (x : PId) :
    pyCount (a :: l) x = (if a = x then 1 else 0) + pyCount l x := by
  unfold pyCount
  rw [List.filter_cons]
  by_cases h : a = x
  · rw [if_pos (by simpa using h), if_pos h, List.length_cons]
    omega
  · rw [if_neg (by simpa using h), if_neg h]
    omega

theorem pyCount_pos_iff (l : List PId) (x : PId) : 0 < pyCount l x ↔ x ∈ l := by
  induction l with
  | nil => simp [pyCount]
  | cons a l ih =>
    rw [pyCount_cons, List.mem_cons]
    by_cases h : a = x
    · subst h
      simp
    · rw [if_neg h]
      simp only [Nat.zero_add]
      rw [ih]
      constructor
      · exact Or.inr
      · rintro (rfl | hm)
        · exact absurd rfl h
        · exact hm

/-- A list has no duplicates iff no element occurs twice (Python count). -/
theorem nodup_iff_pyCount (l : List PId) : l.Nodup ↔ ∀ x, pyCount l x ≤ 1 := by
  induction l with
  | nil => simp [pyCount]
  | cons a l ih =>
    rw [List.nodup_cons, ih]
    constructor
    · rintro ⟨hna, hc⟩ x
      rw [pyCount_cons]
      by_cases h : a = x
      · subst h
        rw [if_pos rfl]
        have hz : pyCount l a = 0 := by
          by_contra hpos
          exact hna ((pyCount_pos_iff l a).mp (by omega))
        omega
      · rw [if_neg h]
        have := hc x
        omega
    · intro h
      constructor
      · intro hmem
        have h1 := h a
        rw [pyCount_cons, if_pos rfl] at h1
        have := (pyCount_pos_iff l a).mpr hmem
        omega
      · intro x
        have h1 := h x
        rw [pyCount_cons] at h1
        by_cases hax : a = x
        · rw [if_pos hax] at h1
          omega
        · rw [if_neg hax] at h1
          omega

theorem ite_singleton_append_ne_nil (c1 c2 : Prop) [Decidable c1] [Decidable c2]
    (m1 m2 : String) (l3 : List String) :
    ((if c1 then [m1] else []) ++ (if c2 then [m2] else []) ++ l3) ≠ [] ↔
      (c1 ∨ c2 ∨ l3 ≠ []) := by
  by_cases h1 : c1 <;> by_cases h2 : c2 <;> simp [h1, h2]

theorem validateTreeData_ne_nil (t : Tree) :
    validateTreeData t ≠ [] ↔
      ((∃ p ∈ t.all_people.map Prod.snd, nameBlank p = true) ∨
        ¬((t.all_people.map Prod.snd).map Person.id).Nodup ∨
        (∃ p ∈ t.all_people.map Prod.snd, p.id ∈ p.parents)) := by
  simp only [validateTreeData]
  rw [ite_singleton_append_ne_nil]
  have iff1 : ((t.all_people.map Prod.snd).filter nameBlank).length > 0 ↔
      ∃ p ∈ t.all_people.map Prod.snd, nameBlank p = true := by
    constructor
    · intro h
      obtain ⟨p, hp⟩ := List.exists_mem_of_length_pos h
      rw [List.mem_filter] at hp
      exact ⟨p, hp.1, hp.2⟩
    · rintro ⟨p, hp, hb⟩
      exact List.length_pos_of_mem (List.mem_filter.mpr ⟨hp, hb⟩)
  have iff2 : ((((t.all_people.map Prod.snd).map Person.id).filter
        (fun x => pyCount ((t.all_people.map Prod.snd).map Person.id) x > 1)).dedup ≠ []) ↔
      ¬((t.all_people.map Prod.snd).map Person.id).Nodup := by
    rw [ne_eq, List.dedup_eq_nil, nodup_iff_pyCount]
    push_neg
    constructor
    · intro h
      obtain ⟨x, hx⟩ := List.exists_mem_of_ne_nil _ h
      rw [List.mem_filter, decide_eq_true_eq] at hx
      obtain ⟨-, hxc⟩ := hx
      exact ⟨x, by omega⟩
    · rintro ⟨x, hc⟩
      have hmem : x ∈ (t.all_people.map Prod.snd).map Person.id :=
        (pyCount_pos_iff _ _).mp (by omega)
      intro hnil
      rw [List.filter_eq_nil_iff] at hnil
      have hle := hnil x hmem
      rw [decide_eq_true_eq] at hle
      omega
  have iff3 : ((t.all_people.map Prod.snd).filterMap
        (fun p =>
          if p.id ∈ p.parents then
            let nm := p.name
            some s!"Person {nm} is their own parent"
          else none) ≠ []) ↔
      ∃ p ∈ t.all_people.map Prod.snd, p.id ∈ p.parents := by
    rw [ne_eq, List.filterMap_eq_nil_iff]
    push_neg
    constructor
    · rintro ⟨p, hp, hne⟩
      refine ⟨p, hp, ?_⟩
      by_contra hmem
      exact hne (by simp [hmem])
    · rintro ⟨p, hp, hmem⟩
      exact ⟨p, hp, by simp [hmem]⟩
  exact or_congr iff1 (or_congr iff2 iff3)

/-! # Claim theorems -/

/-- C1: loading deduplicates people by id.  For every raw record, the loaded
`allPeople` store binds every id at most once (its key list has no duplicates)
and every parent reference in any parents list is one of those keys, so a
repeated id always denotes the single stored Person.  Parsing is a total
function of the raw record (the embedding is structurally recursive), so it
terminates.  On the concrete record `rawShared`, where id 4 appears fully
re-serialized under children 1 and 2, the result holds exactly one binding for
id 4, referenced from both parents lists. -/
theorem c1_unique_person_per_id :
    (∀ r : RawRecord,
      (cacheKeys (parseTreeData r).all_people).Nodup ∧
      (∀ k p q, cacheLookup (parseTreeData r).all_people k = some p →
        q ∈ p.parents → q ∈ cacheKeys (parseTreeData r).all_people)) ∧
    (parseTreeData rawShared).all_people =
      [(some 1, { id := some 1, name := "Child", birth_year := none, photo := none,
                  type := "person", stock := false, parents := [some 2, some 4] }),
       (some 2, { id := some 2, name := "P2", birth_year := none, photo := none,
                  type := "person", stock := false, parents := [some 4] }),
       (some 4, { id := some 4, name := "G4", birth_year := none, photo := none,
                  type := "person", stock := false, parents := [] })] := by
  constructor
  · intro r
    obtain ⟨hwf, -, -, -⟩ := parseTreeData_wf r
    exact ⟨hwf.nodupKeys, fun k p q hl hm => hwf.closed k p q hl hm⟩
  · decide

/-- Witness for C1 at a concrete input: the closure part applied to the loaded
`rawShared` store at person 2's parent reference 4. -/
theorem c1_unique_person_per_id_witness :
    (some 4) ∈ cacheKeys (parseTreeData rawShared).all_people :=
  (c1_unique_person_per_id.1 rawShared).2 (some 2)
    { id := some 2, name := "P2", birth_year := none, photo := none,
      type := "person", stock := false, parents := [some 4] }
    (some 4) (by decide) (by decide)

/-- C2 counterexample: generation assignment is not first-write-wins.  In the
loaded `rawShared` tree (root 1 with parents 2 and 4, person 4 also a parent
of 2), person 4 is visited at level 1 and again at level 2, and the code
records it at *both* levels — `generations = {0:[1], 1:[2,4], 2:[4]}` — so a
person is not kept at exactly the level of its first visit. -/
theorem c2_first_write_wins_counterexample :
    getGenerations (parseTreeData rawShared) 10 =
      some [(0, [some 1]), (1, [some 2, some 4]), (2, [some 4])] ∧
    ¬ personAtOneLevel [(0, [some 1]), (1, [some 2, some 4]), (2, [some 4])] := by
  constructor
  · decide
  · unfold personAtOneLevel
    decide

/-- C2 amended: generation assignment deduplicates per level, not globally.
Along the deterministic depth-first traversal (root at level 0, then parents
in stored order), a person is appended to each level at which it is visited
unless already present at that level; so every level's list is duplicate-free
(and level keys are unique), but a person reachable at two different depths is
recorded at both.  The end-to-end example still yields
`{0:[1], 1:[2,3]}`. -/
theorem c2_per_level_dedup :
    (∀ (r : RawRecord) (fuel : Nat) (gens : Gens),
      getGenerations (parseTreeData r) fuel = some gens →
      (gens.map Prod.fst).Nodup ∧ ∀ e ∈ gens, e.2.Nodup) ∧
    getGenerations (parseTreeData rawA) 3 = some [(0, [some 1]), (1, [some 2, some 3])] := by
  constructor
  · intro r fuel gens h
    exact assignGen_gensWF fuel _ _ _ ⟨by simp, by simp⟩ h
  · decide

/-- Witness for C2 at a concrete input: the loaded end-to-end example. -/
theorem c2_per_level_dedup_witness :
    (([(0, [some 1]), (1, [some 2, some 3])] : Gens).map Prod.fst).Nodup ∧
    ∀ e ∈ ([(0, [some 1]), (1, [some 2, some 3])] : Gens), e.2.Nodup :=
  c2_per_level_dedup.1 rawA 3 [(0, [some 1]), (1, [some 2, some 3])] (by decide)

/-- C3 counterexample: a root record with no `id` field does *not* abort the
load.  `parse_person` reads the id with `person_data.get('id')`, obtaining
`None`; no `MalformedDataError` exists anywhere in the code and nothing is
raised — the load returns a complete `FamilyTree` whose root Person has id
`None`, contradicting "the load aborts and no FamilyTree is returned". -/
theorem c3_missing_id_counterexample :
    rawNoId.id = none ∧
    parseTreeData rawNoId =
      { root := none, last_id := 0,
        all_people := [(none, { id := none, name := "X", birth_year := none,
                                photo := none, type := "person", stock := false,
                                parents := [] })] } := by
  constructor
  · rfl
  · decide

/-- C3 amended: loading never fails.  For every raw record — with or without
an `id` field — `load` returns a `FamilyTree` whose root reference is the raw
record's id value (`None` when absent) and whose people table binds it. -/
theorem c3_load_never_fails : ∀ r : RawRecord,
    (parseTreeData r).root = r.id ∧
    r.id ∈ cacheKeys (parseTreeData r).all_people := by
  intro r
  obtain ⟨-, h2, h3, -⟩ := parseTreeData_wf r
  exact ⟨h2, h3⟩

/-- C4: the public table contains exactly the people connected to the root.
For every raw record, an id is a key of the loaded `allPeople` iff it is
reachable from the root by following parent links, and the keys are
duplicate-free — so `|allPeople|` equals the number of distinct reachable
ids. -/
theorem c4_allPeople_eq_reachable : ∀ r : RawRecord,
    (∀ k, k ∈ cacheKeys (parseTreeData r).all_people ↔
      Reaches (parseTreeData r).all_people (parseTreeData r).root k) ∧
    (cacheKeys (parseTreeData r).all_people).Nodup := by
  intro r
  obtain ⟨hwf, hroot, hrootmem, hreach⟩ := parseTreeData_wf r
  refine ⟨fun k => ⟨?_, ?_⟩, hwf.nodupKeys⟩
  · intro hk
    rw [hroot]
    exact hreach k hk
  · intro hr
    refine reaches_mem_keys hwf ?_ hr
    rw [hroot]
    exact hrootmem

/-- C5 counterexample: the root is placed at the *top*, not the bottom.  For
the loaded single-child chain of depth 1, `_calculate_layout` gives the root
(level 0) the vertical coordinate `max_generation * 2.0 = 2.0` and its parent
(level 1) the coordinate `0.0`, so the root does not have the lowest vertical
coordinate and y strictly *decreases* with the generation level. -/
theorem c5_root_bottom_counterexample :
    getGenerations (parseTreeData (chainRaw 0 1)) 2 = some (chainGens 1) ∧
    calculateLayout (chainGens 1) = [(some 0, ((0 : ℚ), 2)), (some 1, (0, 0))] ∧
    ¬ (∀ e1 ∈ calculateLayout (chainGens 1), ∀ e2 ∈ calculateLayout (chainGens 1),
        e1.1 = some 0 → e1.2.2 ≤ e2.2.2) := by
  have hlayout : calculateLayout (chainGens 1) = [(some 0, ((0 : ℚ), 2)), (some 1, (0, 0))] := by
    rw [calculateLayout_chain 1]
    simp [List.range_succ]
  refine ⟨getGenerations_chain 1, hlayout, ?_⟩
  rw [hlayout]
  intro h
  have := h (some 0, ((0 : ℚ), 2)) (by simp) (some 1, ((0 : ℚ), 0)) (by simp) rfl
  norm_num at this

/-- C5 amended: vertical layout with the root on top.  For the single-child
chain of depth `D`, the `D+1` people are placed at `D+1` distinct vertical
coordinates `y = (D - level) * 2.0`, *strictly decreasing* as the generation
level increases (level 0, the root, highest), all at horizontal coordinate
`x = 0`. -/
theorem c5_chain_layout : ∀ D : Nat,
    getGenerations (parseTreeData (chainRaw 0 D)) (D + 1) = some (chainGens D) ∧
    calculateLayout (chainGens D) =
      (List.range (D + 1)).map
        (fun k : Nat => (some (k : Int), ((0 : ℚ), (D : ℚ) * 2 - (k : ℚ) * 2))) ∧
    (calculateLayout (chainGens D)).length = D + 1 ∧
    (calculateLayout (chainGens D)).map (fun e => e.2.1) =
      List.replicate (D + 1) (0 : ℚ) ∧
    ((calculateLayout (chainGens D)).map (fun e => e.2.2)).Pairwise (· > ·) := by
  intro D
  refine ⟨getGenerations_chain D, calculateLayout_chain D, ?_, ?_, ?_⟩
  · rw [calculateLayout_chain D]
    simp
  · rw [calculateLayout_chain D, List.map_map]
    refine List.eq_replicate_iff.mpr ⟨by simp, ?_⟩
    intro b hb
    rw [List.mem_map] at hb
    obtain ⟨k, -, hk⟩ := hb
    exact hk.symm
  · rw [calculateLayout_chain D, List.map_map]
    refine List.Pairwise.map _ ?_ (List.pairwise_lt_range (D + 1))
    intro a b hab
    show (D : ℚ) * 2 - (b : ℚ) * 2 < (D : ℚ) * 2 - (a : ℚ) * 2
    have : (a : ℚ) < (b : ℚ) := by exact_mod_cast hab
    linarith

/-- C6: per-level horizontal placement.  A level with exactly one person puts
it at `x = 0`.  A level with `N > 1` people uses spacing
`max(3.0, 8.0 / N)`: consecutive x coordinates differ by exactly that
spacing, the coordinates strictly increase in the people's stored order, and
mirrored positions sum to zero (symmetric about the center).  The layout
assigns the i-th person of the level the i-th coordinate — stored order is
preserved, not re-sorted. -/
theorem c6_sibling_spacing :
    xPositions 1 = [0] ∧
    (∀ n : Nat, 1 < n →
      (xPositions n).length = n ∧
      (xPositions n).Pairwise (· < ·) ∧
      (∀ i, i < n → ∀ a b : ℚ, (xPositions n)[i]? = some a →
        (xPositions n)[n - 1 - i]? = some b → a + b = 0) ∧
      (∀ i, i + 1 < n → ∀ a b : ℚ, (xPositions n)[i]? = some a →
        (xPositions n)[i + 1]? = some b → b - a = max 3 (8 / (n : ℚ)))) ∧
    (∀ (L : Nat) (people : List PId), people.Nodup →
      calculateLayout [(L, people)] =
        (people.zip (xPositions people.length)).map
          (fun pv => (pv.1, (pv.2, (0 : ℚ))))) := by
  refine ⟨xPositions_one, ?_, calculateLayout_single_level⟩
  intro n hn
  exact ⟨xPositions_length n, xPositions_pairwise_lt n,
    fun i hi a b ha hb => xPositions_symm hn hi ha hb,
    fun i hi a b ha hb => xPositions_gap hn hi ha hb⟩

/-- Witness for C6 at concrete inputs: four siblings (spacing `max(3, 2) = 3`)
and a two-person level in stored order. -/
theorem c6_sibling_spacing_witness :
    (xPositions 4).Pairwise (· < ·) ∧
    calculateLayout [(1, [some 1, some 2])] =
      (([some 1, some 2] : List PId).zip (xPositions 2)).map
        (fun pv => (pv.1, (pv.2, (0 : ℚ)))) :=
  ⟨(c6_sibling_spacing.2.1 4 (by norm_num)).2.1,
   c6_sibling_spacing.2.2 1 [some 1, some 2] (by decide)⟩

/-- C7: generation assignment terminates on every loaded DAG.  If the loaded
parent links admit a rank function (equivalently, for a finite graph: they
are acyclic), then some finite fuel completes `get_generations`, and any
larger fuel returns the identical result — the traversal is bounded. -/
theorem c7_generation_terminates :
    ∀ (r : RawRecord) (rank : PId → Nat),
      HasRank (parseTreeData r).all_people rank →
      ∃ fuel : Nat, (getGenerations (parseTreeData r) fuel).isSome = true ∧
        ∀ fuel', fuel ≤ fuel' →
          getGenerations (parseTreeData r) fuel' =
            getGenerations (parseTreeData r) fuel := by
  intro r rank hr
  refine ⟨rankFuel (maxParents (parseTreeData r).all_people)
    (rank (parseTreeData r).root), getGenerations_isSome hr, ?_⟩
  intro fuel' hle
  obtain ⟨res, hres⟩ := Option.isSome_iff_exists.mp (getGenerations_isSome hr)
  rw [hres]
  unfold getGenerations at hres ⊢
  exact assignGen_mono hle hres

/-- Witness for C7 at a concrete input: the end-to-end example tree with an
explicit rank function. -/
theorem c7_generation_terminates_witness :
    ∃ fuel : Nat, (getGenerations (parseTreeData rawA) fuel).isSome = true ∧
      ∀ fuel', fuel ≤ fuel' →
        getGenerations (parseTreeData rawA) fuel' =
          getGenerations (parseTreeData rawA) fuel :=
  c7_generation_terminates rawA (fun pid => if pid = some 1 then 1 else 0)
    (by unfold HasRank; decide)

/-- C8 counterexample: a birth year that is present but empty produces no
birth-year line.  `_format_person_text` tests `if person.birth_year:` —
Python truthiness — so for `birth_year = ""` (present, non-None) the label is
just the name line, contradicting "when birth_year is present, one additional
line is appended". -/
theorem c8_birth_year_counterexample :
    pEmptyBirth.birth_year = some "" ∧
    formatPersonText pEmptyBirth = ["Ada Lovelace"] := by
  constructor
  · rfl
  · decide

/-- C8 amended: both renderers build the same label lines.  The Graphviz
label builder and the matplotlib text formatter compute identical line lists:
a name with more than two whitespace-separated tokens occupies exactly two
lines (all tokens but the last joined by single spaces, then the last token),
otherwise the whole raw name is one line; and when `birth_year` is present
*and non-empty* (Python truthiness) one `(birth_year)` line is appended. -/
theorem c8_label_lines : ∀ p : Person,
    createPersonLabelLines p = formatPersonText p ∧
    createPersonLabel p = "\\n".intercalate (formatPersonText p) ∧
    ((pySplit p.name).length > 2 →
      formatPersonText p =
        [" ".intercalate (pySplit p.name).dropLast, (pySplit p.name).getLastD ""] ++
          (if birthYearTruthy p then ["(" ++ p.birth_year.getD "" ++ ")"] else [])) ∧
    ((pySplit p.name).length ≤ 2 →
      formatPersonText p =
        [p.name] ++
          (if birthYearTruthy p then ["(" ++ p.birth_year.getD "" ++ ")"] else [])) := by
  intro p
  refine ⟨rfl, rfl, ?_, ?_⟩
  · intro h
    simp only [formatPersonText]
    rw [if_pos h]
    by_cases hb : birthYearTruthy p = true
    · rw [if_pos hb, if_pos hb]
    · rw [if_neg hb, if_neg hb, List.append_nil]
  · intro h
    simp only [formatPersonText]
    have hnot : ¬(pySplit p.name).length > 2 := by omega
    rw [if_neg hnot]
    by_cases hb : birthYearTruthy p = true
    · rw [if_pos hb, if_pos hb]
    · rw [if_neg hb, if_neg hb, List.append_nil]

/-- Witness for C8 at a concrete input: a three-token name with a birth
year. -/
theorem c8_label_lines_witness :
    formatPersonText pAnne =
      [" ".intercalate (pySplit pAnne.name).dropLast, (pySplit pAnne.name).getLastD ""] ++
        (if birthYearTruthy pAnne then ["(" ++ pAnne.birth_year.getD "" ++ ")"] else []) :=
  (c8_label_lines pAnne).2.2.1 (by decide)

/-- C9: validation is total (the embedding is a total function — nothing is
raised) and advisory: its diagnostics list is non-empty exactly when the tree
holds a person with a blank (empty or all-whitespace) name, or two people
(entries of `allPeople`) share an id, or some person is their own parent.
Proven for every tree value, hence for every loaded tree. -/
theorem c9_validation_advisory : ∀ t : Tree,
    validateTreeData t ≠ [] ↔
      ((∃ p ∈ t.all_people.map Prod.snd, nameBlank p = true) ∨
        ¬((t.all_people.map Prod.snd).map Person.id).Nodup ∨
        (∃ p ∈ t.all_people.map Prod.snd, p.id ∈ p.parents)) :=
  validateTreeData_ne_nil

/-- C10: no duplicate parents.  Every person produced by loading has a
parents list with pairwise distinct references (Person equality is id
equality), because `add_parent` appends only when no equal-id parent is
already present; and adding an already-present parent leaves the list
unchanged. -/
theorem c10_no_duplicate_parents :
    (∀ (r : RawRecord) (k : PId) (p : Person),
      cacheLookup (parseTreeData r).all_people k = some p → p.parents.Nodup) ∧
    (∀ (l : List PId) (q : PId), q ∈ l → addParent l q = l) := by
  constructor
  · intro r k p hl
    obtain ⟨hwf, -, -, -⟩ := parseTreeData_wf r
    exact hwf.parentsNodup k p hl
  · intro l q hq
    exact addParent_of_mem hq

/-- Witness for C10 at concrete inputs: the root of the loaded `rawShared`
tree, and re-adding an existing parent reference. -/
theorem c10_no_duplicate_parents_witness :
    ([some 2, some 4] : List PId).Nodup ∧
    addParent [some 4] (some 4) = [some 4] :=
  ⟨c10_no_duplicate_parents.1 rawShared (some 1)
      { id := some 1, name := "Child", birth_year := none, photo := none,
        type := "person", stock := false, parents := [some 2, some 4] }
      (by decide),
   c10_no_duplicate_parents.2 [some 4] (some 4) (by decide)⟩

end FamilyTree
